import Mathlib

/-!
Verification of the core algorithms of the `kaboom` Atom-feed CLI.

Two components are embedded here, straight from the Rust sources:

* the link "micro-format" codec of `src/stringable_link.rs`
  (`link_to_string` / `string_to_link`), and
* the entry pruner of `src/prune_command.rs`
  (`PruneCommand::truncate_returning_rejects` and the guard in
  `PruneCommand::run`).

Strings are modelled as `List Char`.  The structural characters of the
micro-format (`[`, `]`, `=`) are ASCII, so the byte indices produced by
Rust's `rfind` relate to character indices order-isomorphically and the
`split_at` cuts land on the same character boundaries; the character-list
model is therefore faithful to the byte-level code.
-/

set_option maxRecDepth 10000

namespace Kaboom

/-- The fields of `atom_syndication::Link` that the codec reads or writes.
The `length` field of the Rust struct is carried through untouched by both
codec directions and is omitted. -/
structure Link where
  href : List Char
  rel : List Char
  mime_type : Option (List Char)
  hreflang : Option (List Char)
  title : Option (List Char)
deriving DecidableEq

/-- The state of the link at the top of `string_to_link`'s loop:
`AtomLink::default()` (empty `href`, no optional fields) followed by the
unconditional `link.set_rel("related")` at `stringable_link.rs:172`. -/
def initLink : Link :=
  { href := [], rel := "related".data, mime_type := none, hreflang := none, title := none }

/-- `String::ends_with(c)` for a one-character pattern. -/
def endsWith (c : Char) (s : List Char) : Bool :=
  match s.getLast? with
  | some x => x == c
  | none => false

/-- `str::rfind(c)`: the index of the last occurrence of the character `c`,
if any. -/
def rfindIdx (c : Char) : List Char → Option Nat
  | [] => none
  | x :: xs =>
    match rfindIdx c xs with
    | some i => some (i + 1)
    | none => if x == c then some 0 else none

/-- The `match ... split_at ...` arm of `stringable_link.rs:209-221`: `key`
is the bracket content up to and including the `=`, `val` the rest.  A
recognized key sets the corresponding field; an unrecognized key yields
`none` (the Rust code then falls back to treating the remainder as href). -/
def applyInstruction (link : Link) (key val : List Char) : Option Link :=
  if key = "rel=".data then some { link with rel := val }
  else if key = "type=".data then some { link with mime_type := some val }
  else if key = "title=".data then some { link with title := some val }
  else if key = "lang=".data then some { link with hreflang := some val }
  else none

/-- `rem_input[lidx + 1..rem_len - 1]` — the content between the last `[`
and the trailing `]`. -/
def instrContent (rem : List Char) (lidx : Nat) : List Char :=
  (rem.take (rem.length - 1)).drop (lidx + 1)

/-- The `loop` of `string_to_link` (`stringable_link.rs:174-232`).  Each
iteration truncates `rem` to a strictly shorter list, so the loop always
terminates; the extra `fuel` argument makes the recursion structural (and
hence kernel-computable).  Fuel `rem.length + 1` is always enough, and
`string_to_link_loop_fuel` below proves the result does not depend on the
fuel once it is above that threshold. -/
def string_to_link_loop : Nat → Link → List Char → Link
  | 0, link, rem => { link with href := rem }
  | fuel + 1, link, rem =>
    if endsWith ']' rem = false then { link with href := rem }
    else
      match rfindIdx '[' rem with
      | none => { link with href := rem }
      | some lidx =>
        match rfindIdx '=' rem with
        | none => { link with href := rem }
        | some eidx =>
          if eidx < lidx then { link with href := rem }
          else
            match applyInstruction link
                ((instrContent rem lidx).take (eidx - lidx))
                ((instrContent rem lidx).drop (eidx - lidx)) with
            | none => { link with href := rem }
            | some link' => string_to_link_loop fuel link' (rem.take lidx)

/-- `string_to_link` (`stringable_link.rs:164-235`). -/
def string_to_link (it : List Char) : Link :=
  string_to_link_loop (it.length + 1) initLink it

/-- `link_to_string` (`stringable_link.rs:70-89`). -/
def link_to_string (it : Link) : List Char :=
  it.href
    ++ (if it.rel = [] then [] else "[rel=".data ++ it.rel ++ "]".data)
    ++ (match it.mime_type with
        | none => []
        | some mime => "[type=".data ++ mime ++ "]".data)
    ++ (match it.hreflang with
        | none => []
        | some hl => "[lang=".data ++ hl ++ "]".data)
    ++ (match it.title with
        | none => []
        | some t => "[title=".data ++ t ++ "]".data)

/-! ### Helper lemmas about `rfindIdx` and `endsWith` -/

lemma rfindIdx_eq_none_of_not_mem {c : Char} : ∀ {s : List Char}, c ∉ s → rfindIdx c s = none := by
  intro s
  induction s with
  | nil => intro _; rfl
  | cons x xs ih =>
    intro h
    have hx : ¬ x = c := fun hxc => h (by simp [hxc])
    have hxs : c ∉ xs := fun hm => h (List.mem_cons_of_mem _ hm)
    simp [rfindIdx, ih hxs, hx]

lemma rfindIdx_lt_length {c : Char} : ∀ {s : List Char} {i : Nat}, rfindIdx c s = some i → i < s.length := by
  intro s
  induction s with
  | nil => intro i h; simp [rfindIdx] at h
  | cons x xs ih =>
    intro i h
    simp only [rfindIdx] at h
    cases hxs : rfindIdx c xs with
    | some j =>
      rw [hxs] at h
      obtain rfl : j + 1 = i := by simpa using h
      have := ih hxs
      simp only [List.length_cons]
      omega
    | none =>
      rw [hxs] at h
      by_cases hx : x == c
      · simp [hx] at h
        simp [← h]
      · simp [hx] at h

lemma rfindIdx_append_of_some {c : Char} {ys : List Char} {i : Nat}
    (h : rfindIdx c ys = some i) :
    ∀ (xs : List Char), rfindIdx c (xs ++ ys) = some (xs.length + i) := by
  intro xs
  induction xs with
  | nil => simpa using h
  | cons x xs ih =>
    simp only [List.cons_append, rfindIdx, List.append_eq, ih, List.length_cons]
    congr 1
    omega

lemma endsWith_append_rbracket (xs : List Char) :
    endsWith ']' (xs ++ [']']) = true := by
  simp [endsWith, List.getLast?_concat]

/-- The fuel argument of the loop is irrelevant once it exceeds the length
of the remaining input. -/
lemma string_to_link_loop_fuel :
    ∀ (f₁ f₂ : Nat) (link : Link) (rem : List Char),
      rem.length < f₁ → rem.length < f₂ →
      string_to_link_loop f₁ link rem = string_to_link_loop f₂ link rem := by
  intro f₁
  induction f₁ with
  | zero => intro f₂ link rem h₁; exact (Nat.not_lt_zero _ h₁).elim
  | succ g₁ ih =>
    intro f₂ link rem h₁ h₂
    cases f₂ with
    | zero => omega
    | succ g₂ =>
      simp only [string_to_link_loop]
      cases hE : endsWith ']' rem with
      | false => simp
      | true =>
        simp only [Bool.true_eq_false, if_false]
        cases hL : rfindIdx '[' rem with
        | none => rfl
        | some lidx =>
          cases hEq : rfindIdx '=' rem with
          | none => rfl
          | some eidx =>
            by_cases hlt : eidx < lidx
            · simp [hlt]
            · simp only [hlt, if_false]
              cases happ : applyInstruction link
                  ((instrContent rem lidx).take (eidx - lidx))
                  ((instrContent rem lidx).drop (eidx - lidx)) with
              | none => rfl
              | some link' =>
                have hlen : lidx < rem.length := rfindIdx_lt_length hL
                have htake : (rem.take lidx).length = lidx := by
                  simp [List.length_take]
                  omega
                exact ih g₂ link' (rem.take lidx) (by omega) (by omega)

/-- The loop's exit when the remainder does not end in `]`: everything left
becomes the href (`stringable_link.rs:177-181`). -/
lemma string_to_link_loop_stop (fuel : Nat) (link : Link) (rem : List Char)
    (h : endsWith ']' rem = false) :
    string_to_link_loop (fuel + 1) link rem = { link with href := rem } := by
  simp [string_to_link_loop, h]

/-- One iteration of the loop on a remainder that ends with a well-formed,
recognized bracket instruction `[key=val]`: the instruction is applied and
the loop proceeds on the prefix (`stringable_link.rs:209-225`). -/
lemma string_to_link_loop_step (f : Nat) (link link' : Link) (p key val : List Char)
    (hf : p.length + key.length + val.length + 3 ≤ f)
    (hkey : '[' ∉ key) (hval : '[' ∉ val) (hveq : '=' ∉ val)
    (happ : applyInstruction link (key ++ ['=']) val = some link') :
    string_to_link_loop f link (p ++ '[' :: (key ++ '=' :: (val ++ [']']))) =
      string_to_link_loop (p.length + 1) link' p := by
  cases f with
  | zero => omega
  | succ g =>
    have hE : endsWith ']' (p ++ '[' :: (key ++ '=' :: (val ++ [']']))) = true := by
      have h1 : p ++ '[' :: (key ++ '=' :: (val ++ [']']))
          = (p ++ '[' :: (key ++ '=' :: val)) ++ [']'] := by simp
      rw [h1]
      exact endsWith_append_rbracket _
    have hni : ('[' : Char) ∉ key ++ '=' :: (val ++ [']']) := by
      intro h
      simp only [List.mem_append, List.mem_cons, List.mem_singleton] at h
      rcases h with h | h | h | h
      · exact hkey h
      · exact absurd h (by decide)
      · exact hval h
      · exact absurd h (by decide)
    have hL : rfindIdx '[' (p ++ '[' :: (key ++ '=' :: (val ++ [']']))) = some p.length := by
      have h0 : rfindIdx '[' ('[' :: (key ++ '=' :: (val ++ [']']))) = some 0 := by
        simp [rfindIdx, rfindIdx_eq_none_of_not_mem hni]
      simpa using rfindIdx_append_of_some h0 p
    have hniv : ('=' : Char) ∉ val ++ [']'] := by
      intro h
      simp only [List.mem_append, List.mem_singleton] at h
      rcases h with h | h
      · exact hveq h
      · exact absurd h (by decide)
    have hEq : rfindIdx '=' (p ++ '[' :: (key ++ '=' :: (val ++ [']'])))
        = some (p.length + (key.length + 1)) := by
      have h0 : rfindIdx '=' ('=' :: (val ++ [']'])) = some 0 := by
        simp [rfindIdx, rfindIdx_eq_none_of_not_mem hniv]
      have h1 : rfindIdx '=' (key ++ '=' :: (val ++ [']'])) = some key.length := by
        simpa using rfindIdx_append_of_some h0 key
      have h2 : rfindIdx '=' ('[' :: (key ++ '=' :: (val ++ [']'])))
          = some (key.length + 1) := by
        have h3 := rfindIdx_append_of_some h1 ['[']
        simpa [Nat.add_comm] using h3
      simpa using rfindIdx_append_of_some h2 p
    have hcontent : instrContent (p ++ '[' :: (key ++ '=' :: (val ++ [']']))) p.length
        = key ++ '=' :: val := by
      unfold instrContent
      have h1 : p ++ '[' :: (key ++ '=' :: (val ++ [']']))
          = ((p ++ ['[']) ++ (key ++ '=' :: val)) ++ [']'] := by simp
      rw [h1]
      have h2 : ((((p ++ ['[']) ++ (key ++ '=' :: val)) ++ [']']).length - 1)
          = ((p ++ ['[']) ++ (key ++ '=' :: val)).length := by simp; omega
      rw [h2, List.take_left]
      have h3 : p.length + 1 = (p ++ ['[']).length := by simp
      rw [h3, List.drop_left]
    have harith : p.length + (key.length + 1) - p.length = key.length + 1 := by omega
    have hsplit1 : (key ++ '=' :: val).take (key.length + 1) = key ++ ['='] := by
      have h1 : key ++ '=' :: val = (key ++ ['=']) ++ val := by simp
      have h2 : key.length + 1 = (key ++ ['=']).length := by simp
      rw [h1, h2, List.take_left]
    have hsplit2 : (key ++ '=' :: val).drop (key.length + 1) = val := by
      have h1 : key ++ '=' :: val = (key ++ ['=']) ++ val := by simp
      have h2 : key.length + 1 = (key ++ ['=']).length := by simp
      rw [h1, h2, List.drop_left]
    have hnlt : ¬ (p.length + (key.length + 1) < p.length) := by omega
    have htp : (p ++ '[' :: (key ++ '=' :: (val ++ [']']))).take p.length = p := by
      have h1 : p ++ '[' :: (key ++ '=' :: (val ++ [']']))
          = p ++ ('[' :: (key ++ '=' :: (val ++ [']']))) := rfl
      calc (p ++ '[' :: (key ++ '=' :: (val ++ [']']))).take p.length
          = (p ++ ('[' :: (key ++ '=' :: (val ++ [']'])))).take p.length := by rw [h1]
        _ = p := List.take_left p _
    simp only [string_to_link_loop, hE, hL, hEq, harith, hcontent, hsplit1, hsplit2, happ,
      hnlt, if_false, Bool.true_eq_false]
    rw [htp]
    exact string_to_link_loop_fuel g (p.length + 1) link' p (by omega) (by omega)

lemma string_to_link_loop_step_rel (f : Nat) (link : Link) (p v : List Char)
    (hf : (p ++ "[rel=".data ++ v ++ "]".data).length ≤ f)
    (hv1 : '[' ∉ v) (hv2 : '=' ∉ v) :
    string_to_link_loop f link (p ++ "[rel=".data ++ v ++ "]".data) =
      string_to_link_loop (p.length + 1) { link with rel := v } p := by
  have hshape : p ++ "[rel=".data ++ v ++ "]".data
      = p ++ '[' :: ("rel".data ++ '=' :: (v ++ [']'])) := by
    have h1 : "[rel=".data = '[' :: ("rel".data ++ ['=']) := by decide
    have h2 : "]".data = [']'] := by decide
    rw [h1, h2]; simp
  have hlen : (p ++ "[rel=".data ++ v ++ "]".data).length
      = p.length + "rel".data.length + v.length + 3 := by
    simp [List.length_append]
    omega
  have happ : applyInstruction link ("rel".data ++ ['=']) v = some { link with rel := v } := by
    have h : "rel".data ++ ['='] = "rel=".data := by decide
    rw [h]
    unfold applyInstruction
    rw [if_pos rfl]
  rw [hshape]
  exact string_to_link_loop_step f link _ p "rel".data v (by omega) (by decide) hv1 hv2 happ

lemma string_to_link_loop_step_type (f : Nat) (link : Link) (p v : List Char)
    (hf : (p ++ "[type=".data ++ v ++ "]".data).length ≤ f)
    (hv1 : '[' ∉ v) (hv2 : '=' ∉ v) :
    string_to_link_loop f link (p ++ "[type=".data ++ v ++ "]".data) =
      string_to_link_loop (p.length + 1) { link with mime_type := some v } p := by
  have hshape : p ++ "[type=".data ++ v ++ "]".data
      = p ++ '[' :: ("type".data ++ '=' :: (v ++ [']'])) := by
    have h1 : "[type=".data = '[' :: ("type".data ++ ['=']) := by decide
    have h2 : "]".data = [']'] := by decide
    rw [h1, h2]; simp
  have hlen : (p ++ "[type=".data ++ v ++ "]".data).length
      = p.length + "type".data.length + v.length + 3 := by
    simp [List.length_append]
    omega
  have happ : applyInstruction link ("type".data ++ ['=']) v
      = some { link with mime_type := some v } := by
    have h : "type".data ++ ['='] = "type=".data := by decide
    rw [h]
    unfold applyInstruction
    rw [if_neg (by decide), if_pos rfl]
  rw [hshape]
  exact string_to_link_loop_step f link _ p "type".data v (by omega) (by decide) hv1 hv2 happ

lemma string_to_link_loop_step_lang (f : Nat) (link : Link) (p v : List Char)
    (hf : (p ++ "[lang=".data ++ v ++ "]".data).length ≤ f)
    (hv1 : '[' ∉ v) (hv2 : '=' ∉ v) :
    string_to_link_loop f link (p ++ "[lang=".data ++ v ++ "]".data) =
      string_to_link_loop (p.length + 1) { link with hreflang := some v } p := by
  have hshape : p ++ "[lang=".data ++ v ++ "]".data
      = p ++ '[' :: ("lang".data ++ '=' :: (v ++ [']'])) := by
    have h1 : "[lang=".data = '[' :: ("lang".data ++ ['=']) := by decide
    have h2 : "]".data = [']'] := by decide
    rw [h1, h2]; simp
  have hlen : (p ++ "[lang=".data ++ v ++ "]".data).length
      = p.length + "lang".data.length + v.length + 3 := by
    simp [List.length_append]
    omega
  have happ : applyInstruction link ("lang".data ++ ['=']) v
      = some { link with hreflang := some v } := by
    have h : "lang".data ++ ['='] = "lang=".data := by decide
    rw [h]
    unfold applyInstruction
    rw [if_neg (by decide), if_neg (by decide), if_neg (by decide), if_pos rfl]
  rw [hshape]
  exact string_to_link_loop_step f link _ p "lang".data v (by omega) (by decide) hv1 hv2 happ

lemma string_to_link_loop_step_title (f : Nat) (link : Link) (p v : List Char)
    (hf : (p ++ "[title=".data ++ v ++ "]".data).length ≤ f)
    (hv1 : '[' ∉ v) (hv2 : '=' ∉ v) :
    string_to_link_loop f link (p ++ "[title=".data ++ v ++ "]".data) =
      string_to_link_loop (p.length + 1) { link with title := some v } p := by
  have hshape : p ++ "[title=".data ++ v ++ "]".data
      = p ++ '[' :: ("title".data ++ '=' :: (v ++ [']'])) := by
    have h1 : "[title=".data = '[' :: ("title".data ++ ['=']) := by decide
    have h2 : "]".data = [']'] := by decide
    rw [h1, h2]; simp
  have hlen : (p ++ "[title=".data ++ v ++ "]".data).length
      = p.length + "title".data.length + v.length + 3 := by
    simp [List.length_append]
    omega
  have happ : applyInstruction link ("title".data ++ ['=']) v
      = some { link with title := some v } := by
    have h : "title".data ++ ['='] = "title=".data := by decide
    rw [h]
    unfold applyInstruction
    rw [if_neg (by decide), if_neg (by decide), if_pos rfl]
  rw [hshape]
  exact string_to_link_loop_step f link _ p "title".data v (by omega) (by decide) hv1 hv2 happ

/-! ### Claim C1: duplicate bracket keys -/

/-- C1 (counterexample): the claim says that for duplicate keys the
rightmost occurrence wins, so `string_to_link "h[rel=a][rel=b]"` would
have `rel = "b"`.  In fact the loop scans right-to-left, so the leftmost
`[rel=a]` is applied last and overwrites: the result is `rel = "a"`. -/
theorem string_to_link_duplicate_rel_cex :
    (string_to_link "h[rel=a][rel=b]".data).rel ≠ "b".data ∧
      (string_to_link "h[rel=a][rel=b]".data).rel = "a".data := by
  decide

/-- C1 (amended): for an input carrying two `[rel=...]` instructions, the
LEFTMOST occurrence wins.  Processing proceeds right-to-left, so the
further-left match is applied after the right one and overwrites it.  The
values must not contain `[` or `=` and the prefix must not end in `]`,
i.e. both brackets are really parsed as instructions. -/
theorem string_to_link_duplicate_rel (p a b : List Char)
    (hp : endsWith ']' p = false)
    (ha1 : '[' ∉ a) (ha2 : '=' ∉ a) (hb1 : '[' ∉ b) (hb2 : '=' ∉ b) :
    string_to_link (p ++ "[rel=".data ++ a ++ "]".data ++ "[rel=".data ++ b ++ "]".data) =
      { href := p, rel := a, mime_type := none, hreflang := none, title := none } := by
  unfold string_to_link
  rw [string_to_link_loop_step_rel _ _ (p ++ "[rel=".data ++ a ++ "]".data) b
    (Nat.le_succ _) hb1 hb2]
  rw [string_to_link_loop_step_rel _ _ p a (Nat.le_succ _) ha1 ha2]
  rw [string_to_link_loop_stop _ _ _ hp]
  simp [initLink]

/-- C1 (witness for the amended theorem at a concrete input). -/
theorem string_to_link_duplicate_rel_witness :
    string_to_link ("h".data ++ "[rel=".data ++ "a".data ++ "]".data
        ++ "[rel=".data ++ "b".data ++ "]".data) =
      { href := "h".data, rel := "a".data, mime_type := none, hreflang := none, title := none } :=
  string_to_link_duplicate_rel "h".data "a".data "b".data
    (by decide) (by decide) (by decide) (by decide) (by decide)

/-! ### Claim C7: inputs with no consumable instruction -/

/-- C7: any input that does not end in `]` is taken whole as the href; the
`rel` gets the overridden default `"related"` and all optional fields stay
absent (`stringable_link.rs:172,177-181`). -/
theorem string_to_link_no_instruction (s : List Char)
    (h : endsWith ']' s = false) :
    string_to_link s =
      { href := s, rel := "related".data, mime_type := none, hreflang := none, title := none } := by
  unfold string_to_link
  rw [string_to_link_loop_stop _ _ _ h]
  simp [initLink]

/-- C7 (witness): the spec's example `decode("https://x/feed.xml")`. -/
theorem string_to_link_no_instruction_witness :
    string_to_link "https://x/feed.xml".data =
      { href := "https://x/feed.xml".data, rel := "related".data,
        mime_type := none, hreflang := none, title := none } :=
  string_to_link_no_instruction "https://x/feed.xml".data (by decide)


/-! ### Claim C2: encode-decode-encode round trip -/

lemma string_to_link_loop_step_rel2 (f : Nat) (link : Link) (p v : List Char)
    (hf : (p ++ ("[rel=".data ++ v ++ "]".data)).length ≤ f)
    (hv1 : '[' ∉ v) (hv2 : '=' ∉ v) :
    string_to_link_loop f link (p ++ ("[rel=".data ++ v ++ "]".data)) =
      string_to_link_loop (p.length + 1) { link with rel := v } p := by
  have e : p ++ ("[rel=".data ++ v ++ "]".data) = p ++ "[rel=".data ++ v ++ "]".data := by
    simp [List.append_assoc]
  rw [e] at hf ⊢
  exact string_to_link_loop_step_rel f link p v hf hv1 hv2

lemma string_to_link_loop_step_type2 (f : Nat) (link : Link) (p v : List Char)
    (hf : (p ++ ("[type=".data ++ v ++ "]".data)).length ≤ f)
    (hv1 : '[' ∉ v) (hv2 : '=' ∉ v) :
    string_to_link_loop f link (p ++ ("[type=".data ++ v ++ "]".data)) =
      string_to_link_loop (p.length + 1) { link with mime_type := some v } p := by
  have e : p ++ ("[type=".data ++ v ++ "]".data) = p ++ "[type=".data ++ v ++ "]".data := by
    simp [List.append_assoc]
  rw [e] at hf ⊢
  exact string_to_link_loop_step_type f link p v hf hv1 hv2

lemma string_to_link_loop_step_lang2 (f : Nat) (link : Link) (p v : List Char)
    (hf : (p ++ ("[lang=".data ++ v ++ "]".data)).length ≤ f)
    (hv1 : '[' ∉ v) (hv2 : '=' ∉ v) :
    string_to_link_loop f link (p ++ ("[lang=".data ++ v ++ "]".data)) =
      string_to_link_loop (p.length + 1) { link with hreflang := some v } p := by
  have e : p ++ ("[lang=".data ++ v ++ "]".data) = p ++ "[lang=".data ++ v ++ "]".data := by
    simp [List.append_assoc]
  rw [e] at hf ⊢
  exact string_to_link_loop_step_lang f link p v hf hv1 hv2

lemma string_to_link_loop_step_title2 (f : Nat) (link : Link) (p v : List Char)
    (hf : (p ++ ("[title=".data ++ v ++ "]".data)).length ≤ f)
    (hv1 : '[' ∉ v) (hv2 : '=' ∉ v) :
    string_to_link_loop f link (p ++ ("[title=".data ++ v ++ "]".data)) =
      string_to_link_loop (p.length + 1) { link with title := some v } p := by
  have e : p ++ ("[title=".data ++ v ++ "]".data) = p ++ "[title=".data ++ v ++ "]".data := by
    simp [List.append_assoc]
  rw [e] at hf ⊢
  exact string_to_link_loop_step_title f link p v hf hv1 hv2

/-- Decoding an encoded link recovers the link, provided the `rel` is
non-empty (else the default is injected), the href does not end in `]`,
and no field value contains the metacharacters `[` or `=`. -/
lemma string_to_link_link_to_string (l : Link)
    (hrel : l.rel ≠ [])
    (hhref : endsWith ']' l.href = false)
    (hr1 : '[' ∉ l.rel) (hr2 : '=' ∉ l.rel)
    (hm1 : '[' ∉ l.mime_type.getD []) (hm2 : '=' ∉ l.mime_type.getD [])
    (hg1 : '[' ∉ l.hreflang.getD []) (hg2 : '=' ∉ l.hreflang.getD [])
    (ht1 : '[' ∉ l.title.getD []) (ht2 : '=' ∉ l.title.getD []) :
    string_to_link (link_to_string l) = l := by
  obtain ⟨href, rel, mt, hlg, ti⟩ := l
  dsimp only at hrel hhref hr1 hr2 hm1 hm2 hg1 hg2 ht1 ht2
  rcases mt with _ | m <;> rcases hlg with _ | g <;> rcases ti with _ | t <;>
    simp only [Option.getD_some, Option.getD_none] at hm1 hm2 hg1 hg2 ht1 ht2 <;>
    simp only [link_to_string, List.append_nil] <;>
    rw [if_neg hrel] <;>
    unfold string_to_link
  · rw [string_to_link_loop_step_rel2 _ _ href rel (Nat.le_succ _) hr1 hr2,
      string_to_link_loop_stop _ _ _ hhref]
    simp [initLink]
  · rw [string_to_link_loop_step_title2 _ _ _ t (Nat.le_succ _) ht1 ht2,
      string_to_link_loop_step_rel2 _ _ href rel (Nat.le_succ _) hr1 hr2,
      string_to_link_loop_stop _ _ _ hhref]
    simp [initLink]
  · rw [string_to_link_loop_step_lang2 _ _ _ g (Nat.le_succ _) hg1 hg2,
      string_to_link_loop_step_rel2 _ _ href rel (Nat.le_succ _) hr1 hr2,
      string_to_link_loop_stop _ _ _ hhref]
    simp [initLink]
  · rw [string_to_link_loop_step_title2 _ _ _ t (Nat.le_succ _) ht1 ht2,
      string_to_link_loop_step_lang2 _ _ _ g (Nat.le_succ _) hg1 hg2,
      string_to_link_loop_step_rel2 _ _ href rel (Nat.le_succ _) hr1 hr2,
      string_to_link_loop_stop _ _ _ hhref]
    simp [initLink]
  · rw [string_to_link_loop_step_type2 _ _ _ m (Nat.le_succ _) hm1 hm2,
      string_to_link_loop_step_rel2 _ _ href rel (Nat.le_succ _) hr1 hr2,
      string_to_link_loop_stop _ _ _ hhref]
    simp [initLink]
  · rw [string_to_link_loop_step_title2 _ _ _ t (Nat.le_succ _) ht1 ht2,
      string_to_link_loop_step_type2 _ _ _ m (Nat.le_succ _) hm1 hm2,
      string_to_link_loop_step_rel2 _ _ href rel (Nat.le_succ _) hr1 hr2,
      string_to_link_loop_stop _ _ _ hhref]
    simp [initLink]
  · rw [string_to_link_loop_step_lang2 _ _ _ g (Nat.le_succ _) hg1 hg2,
      string_to_link_loop_step_type2 _ _ _ m (Nat.le_succ _) hm1 hm2,
      string_to_link_loop_step_rel2 _ _ href rel (Nat.le_succ _) hr1 hr2,
      string_to_link_loop_stop _ _ _ hhref]
    simp [initLink]
  · rw [string_to_link_loop_step_title2 _ _ _ t (Nat.le_succ _) ht1 ht2,
      string_to_link_loop_step_lang2 _ _ _ g (Nat.le_succ _) hg1 hg2,
      string_to_link_loop_step_type2 _ _ _ m (Nat.le_succ _) hm1 hm2,
      string_to_link_loop_step_rel2 _ _ href rel (Nat.le_succ _) hr1 hr2,
      string_to_link_loop_stop _ _ _ hhref]


/-- C2 (counterexample): the round trip is NOT a fixed point of encode for
every Link with non-empty `rel`.  With `href = "x[rel=evil]"` and
`rel = "a"`, encode yields `"x[rel=evil][rel=a]"`; decoding consumes BOTH
bracket groups (the one baked into the href as well), so re-encoding gives
`"x[rel=evil]"`, not the original encoding. -/
theorem encode_decode_encode_cex :
    ("a".data : List Char) ≠ [] ∧
      link_to_string (string_to_link (link_to_string
          { href := "x[rel=evil]".data, rel := "a".data,
            mime_type := none, hreflang := none, title := none })) ≠
        link_to_string
          { href := "x[rel=evil]".data, rel := "a".data,
            mime_type := none, hreflang := none, title := none } := by
  decide

/-- C2 (amended): for every Link whose `rel` is non-empty, whose href does
not end in `]`, and whose `rel`, `mime_type`, `hreflang` and `title` values
contain neither `[` nor `=`, one encode-decode round trip reaches a fixed
point of encode: `encode (decode (encode l)) = encode l` (indeed
`decode (encode l) = l`, see `string_to_link_link_to_string`). -/
theorem encode_decode_encode (l : Link)
    (hrel : l.rel ≠ [])
    (hhref : endsWith ']' l.href = false)
    (hr1 : '[' ∉ l.rel) (hr2 : '=' ∉ l.rel)
    (hm1 : '[' ∉ l.mime_type.getD []) (hm2 : '=' ∉ l.mime_type.getD [])
    (hg1 : '[' ∉ l.hreflang.getD []) (hg2 : '=' ∉ l.hreflang.getD [])
    (ht1 : '[' ∉ l.title.getD []) (ht2 : '=' ∉ l.title.getD []) :
    link_to_string (string_to_link (link_to_string l)) = link_to_string l := by
  rw [string_to_link_link_to_string l hrel hhref hr1 hr2 hm1 hm2 hg1 hg2 ht1 ht2]

/-- C2 (witness at the spec's fully-populated example link). -/
theorem encode_decode_encode_witness :
    link_to_string (string_to_link (link_to_string
        { href := "https://x/feed.xml".data, rel := "self".data,
          mime_type := some "application/atom+xml".data,
          hreflang := some "en-us".data, title := some "An example feed".data })) =
      link_to_string
        { href := "https://x/feed.xml".data, rel := "self".data,
          mime_type := some "application/atom+xml".data,
          hreflang := some "en-us".data, title := some "An example feed".data } :=
  encode_decode_encode _ (by decide) (by decide) (by decide) (by decide) (by decide)
    (by decide) (by decide) (by decide) (by decide) (by decide)


/-! ### Claim C6: decode never fails, unparseable suffixes become href -/

/-- C6: decode is a total function (the model returns a `Link` for every
input by construction), and whenever the trailing bracket group is not a
valid instruction — no `[` at all, no `=` at all, the last `=` before the
last `[`, or an unrecognized key — the entire remaining string is taken
verbatim as the href (`stringable_link.rs:177-231`).  Concretely, the empty
bracket `"https://x/feed.xml[]"` and the unmatched `"https://x/feed.xml]"`
both decode to a Link whose href is the whole input. -/
theorem string_to_link_graceful :
    (∀ (link : Link) (rem : List Char) (fuel : Nat),
        endsWith ']' rem = true →
        (rfindIdx '[' rem = none ∨
         rfindIdx '=' rem = none ∨
         (∃ lidx eidx, rfindIdx '[' rem = some lidx ∧ rfindIdx '=' rem = some eidx ∧
           (eidx < lidx ∨ (lidx ≤ eidx ∧
             applyInstruction link ((instrContent rem lidx).take (eidx - lidx))
               ((instrContent rem lidx).drop (eidx - lidx)) = none)))) →
        string_to_link_loop (fuel + 1) link rem = { link with href := rem }) ∧
    string_to_link "https://x/feed.xml[]".data =
      { href := "https://x/feed.xml[]".data, rel := "related".data,
        mime_type := none, hreflang := none, title := none } ∧
    string_to_link "https://x/feed.xml]".data =
      { href := "https://x/feed.xml]".data, rel := "related".data,
        mime_type := none, hreflang := none, title := none } := by
  refine ⟨?_, by decide, by decide⟩
  intro link rem fuel hE hbad
  simp only [string_to_link_loop, hE, Bool.true_eq_false, if_false]
  cases hL : rfindIdx '[' rem with
  | none => rfl
  | some lidx =>
    cases hEq : rfindIdx '=' rem with
    | none => rfl
    | some eidx =>
      rcases hbad with h | h | ⟨l', e', hl', he', hcase⟩
      · rw [hL] at h; exact absurd h (by simp)
      · rw [hEq] at h; exact absurd h (by simp)
      · rw [hL] at hl'
        rw [hEq] at he'
        obtain rfl : lidx = l' := Option.some.inj hl'
        obtain rfl : eidx = e' := Option.some.inj he'
        rcases hcase with hlt | ⟨hle, happ⟩
        · simp [hlt]
        · have hnlt : ¬ eidx < lidx := not_lt.mpr hle
          simp [hnlt, happ]

/-- C6 (witness): the fallback branch applied to the concrete remainder
`"x]"` (a trailing `]` with no matching `[`). -/
theorem string_to_link_graceful_witness :
    string_to_link_loop (0 + 1) initLink "x]".data = { initLink with href := "x]".data } :=
  string_to_link_graceful.1 initLink "x]".data 0 (by decide) (Or.inl (by decide))

/-! ### Claim C8: the encode format -/

/-- C8: encode concatenates, in fixed order: href, then `[rel=...]` only if
`rel` is non-empty, then `[type=...]`, `[lang=...]`, `[title=...]` when the
optional fields are present, with no escaping of the values.  The second
conjunct checks the fully-populated example string; the third checks that
decode recovers the structured link from that very string. -/
theorem link_to_string_format :
    (∀ l : Link,
      link_to_string l =
        l.href ++ (if l.rel = [] then [] else "[rel=".data ++ l.rel ++ "]".data)
          ++ l.mime_type.elim [] (fun m => "[type=".data ++ m ++ "]".data)
          ++ l.hreflang.elim [] (fun g => "[lang=".data ++ g ++ "]".data)
          ++ l.title.elim [] (fun t => "[title=".data ++ t ++ "]".data)) ∧
    link_to_string
        { href := "https://x/feed.xml".data, rel := "self".data,
          mime_type := some "application/atom+xml".data,
          hreflang := some "en-us".data, title := some "An example feed".data } =
      "https://x/feed.xml[rel=self][type=application/atom+xml][lang=en-us][title=An example feed]".data ∧
    string_to_link
        "https://x/feed.xml[rel=self][type=application/atom+xml][lang=en-us][title=An example feed]".data =
      { href := "https://x/feed.xml".data, rel := "self".data,
        mime_type := some "application/atom+xml".data,
        hreflang := some "en-us".data, title := some "An example feed".data } := by
  refine ⟨?_, by decide, by decide⟩
  intro l
  obtain ⟨href, rel, mt, hlg, ti⟩ := l
  rcases mt with _ | m <;> rcases hlg with _ | g <;> rcases ti with _ | t <;> rfl

/-! ### The entry pruner (`src/prune_command.rs`) -/

/-- The slice of an Atom entry the pruner inspects: the two timestamp keys
(as `Option Int` instants, per the spec's data model §3/§6) plus an opaque
payload standing in for the rest of the entry. -/
structure Entry where
  content : Nat
  published : Option Int
  updated : Option Int
deriving DecidableEq

instance : Inhabited Entry := ⟨⟨0, none, none⟩⟩

/-- Rust's derived `Ord` on `Option<T>`: `None` sorts below every
`Some`. -/
def optionLe (a b : Option Int) : Bool :=
  match a, b with
  | none, _ => true
  | some _, none => false
  | some x, some y => decide (x ≤ y)

/-- The sort key of `entries.sort_by_key(|it| it.published)`. -/
def pubOrder (a b : Entry) : Prop := optionLe a.published b.published = true

instance : DecidableRel pubOrder := fun _ _ => instDecidableEqBool _ _

/-- The sort key of `entries.sort_by_key(|it| it.updated)`. -/
def updOrder (a b : Entry) : Prop := optionLe a.updated b.updated = true

instance : DecidableRel updOrder := fun _ _ => instDecidableEqBool _ _

instance : IsTotal Entry pubOrder := ⟨by
  intro a b
  unfold pubOrder optionLe
  rcases a.published with _ | x <;> rcases b.published with _ | y <;> simp
  exact Int.le_total x y⟩

instance : IsTrans Entry pubOrder := ⟨by
  intro a b c hab hbc
  unfold pubOrder optionLe at *
  rcases ha : a.published with _ | x <;> rcases hb : b.published with _ | y <;>
    rcases hc : c.published with _ | z <;>
    rw [ha, hb] at hab <;> rw [hb, hc] at hbc <;> simp_all
  omega⟩

/-- `Vec::sort_by_key(|it| it.published)` followed by `Vec::reverse`
(`prune_command.rs:130-131,140-141`).  Rust's `sort_by_key` is a stable
ascending sort; insertion sort is also stable, and any two stable sorts by
the same total preorder produce the same list, so the model is
observationally identical. -/
def sortByPublishedDesc (entries : List Entry) : List Entry :=
  (List.insertionSort pubOrder entries).reverse

/-- Same, keyed on `updated` (`prune_command.rs:135-136`). -/
def sortByUpdatedDesc (entries : List Entry) : List Entry :=
  (List.insertionSort updOrder entries).reverse

/-- `Vec::split_off(n)`: the vector keeps the first `n` elements and the
tail is returned.  Rust panics when `n > len`; the model returns `none`
there.  The result pair is (kept, returned tail). -/
def splitOff {α : Type} (n : Nat) (l : List α) : Option (List α × List α) :=
  if n ≤ l.length then some (l.take n, l.drop n) else none

/-- The loop of Rust's `slice::binary_search_by` as invoked by
`slice::partition_point(pred)`: the probe function returns `Less` exactly
when `pred` holds, so the `Equal` arm is never taken and the result is the
final `left`.  Each iteration shrinks `right - left` by at least one, so
fuel `right - left` suffices; the fuel argument keeps the recursion
structural. -/
def ppAux {α : Type} [Inhabited α] (pred : α → Bool) (xs : List α) : Nat → Nat → Nat → Nat
  | 0, left, _ => left
  | fuel + 1, left, right =>
    if left < right then
      let mid := left + (right - left) / 2
      if pred (xs.getD mid default) then ppAux pred xs fuel (mid + 1) right
      else ppAux pred xs fuel left mid
    else left

/-- `slice::partition_point(pred)` (`prune_command.rs:142-144`). -/
def partitionPoint {α : Type} [Inhabited α] (pred : α → Bool) (xs : List α) : Nat :=
  ppAux pred xs xs.length 0 xs.length

/-- The closure `|e| e.published().map_or(false, |pubd| pubd >= &self.since_date)`
(`prune_command.rs:142-144`). -/
def sinceDatePred (since_date : Int) (e : Entry) : Bool :=
  match e.published with
  | some pubd => decide (since_date ≤ pubd)
  | none => false

/-- `PruneStrategy` (`prune_command.rs:29-34`). -/
inductive PruneStrategy where
  | RecentlyPublished
  | RecentlyUpdated
  | SinceDate
deriving DecidableEq

/-- `PruneCommand::truncate_returning_rejects` (`prune_command.rs:127-152`).
The Rust method truncates `entries` in place to the kept set and returns
the rejects; the model returns the pair (kept, rejects), and `none` models
the `split_off` panic when the split index exceeds the length. -/
def truncate_returning_rejects (strategy : PruneStrategy) (count : Nat) (since_date : Int)
    (entries : List Entry) : Option (List Entry × List Entry) :=
  match strategy with
  | .RecentlyPublished => splitOff count (sortByPublishedDesc entries)
  | .RecentlyUpdated => splitOff count (sortByUpdatedDesc entries)
  | .SinceDate =>
    let sorted := sortByPublishedDesc entries
    let ppoint := partitionPoint (sinceDatePred since_date) sorted
    if ppoint > count then splitOff count sorted else splitOff ppoint sorted

/-- The pure control flow of `PruneCommand::run` (`prune_command.rs:92-120`),
with the file I/O abstracted away: the result is the feed's new entry list
together with the rejected entries that get written to the reject feed
(`none` when `no_reject` suppresses that write). -/
def prune_run (strategy : PruneStrategy) (count : Nat) (since_date : Int) (no_reject : Bool)
    (entries : List Entry) : Option (List Entry × Option (List Entry)) :=
  if entries.length ≤ count then
    some (entries, none)
  else
    match truncate_returning_rejects strategy count since_date entries with
    | some (kept, rejected) => some (kept, if no_reject then none else some rejected)
    | none => none

/-! ### Helper lemmas about the pruner -/

lemma ppAux_le {α : Type} [Inhabited α] (pred : α → Bool) (xs : List α) :
    ∀ (fuel left right : Nat), left ≤ right → ppAux pred xs fuel left right ≤ right := by
  intro fuel
  induction fuel with
  | zero => intro left right h; exact h
  | succ g ih =>
    intro left right h
    by_cases hlr : left < right
    · simp only [ppAux, hlr, if_true]
      by_cases hp : pred (xs.getD (left + (right - left) / 2) default) = true
      · simp only [hp, if_true]
        exact ih _ _ (by omega)
      · simp only [hp, if_false]
        exact le_trans (ih _ _ (by omega)) (by omega)
    · simp only [ppAux, hlr, if_false]
      exact h

lemma takeWhile_getD_true {α : Type} [Inhabited α] (p : α → Bool) :
    ∀ (l : List α) (i : Nat), i < (l.takeWhile p).length → p (l.getD i default) = true := by
  intro l
  induction l with
  | nil => intro i h; simp [List.takeWhile] at h
  | cons x xs ih =>
    intro i h
    cases hx : p x with
    | false =>
      rw [List.takeWhile_cons, hx] at h
      simp at h
    | true =>
      rw [List.takeWhile_cons, hx] at h
      simp at h
      cases i with
      | zero => simpa using hx
      | succ j =>
        simp only [List.getD_cons_succ]
        exact ih j (by omega)

lemma takeWhile_getD_false_at {α : Type} [Inhabited α] (p : α → Bool) :
    ∀ (l : List α), (l.takeWhile p).length < l.length →
      p (l.getD (l.takeWhile p).length default) = false := by
  intro l
  induction l with
  | nil => intro h; simp at h
  | cons x xs ih =>
    intro h
    cases hx : p x with
    | true =>
      rw [List.takeWhile_cons, hx] at h ⊢
      simp only [if_true, List.length_cons, List.getD_cons_succ] at h ⊢
      exact ih (by omega)
    | false =>
      rw [List.takeWhile_cons, hx]
      simp
      exact hx

lemma takeWhile_length_le {α : Type} (p : α → Bool) :
    ∀ (l : List α), (l.takeWhile p).length ≤ l.length := by
  intro l
  induction l with
  | nil => simp
  | cons x xs ih =>
    cases hx : p x with
    | true =>
      rw [List.takeWhile_cons, hx]
      simp only [if_true, List.length_cons]
      omega
    | false =>
      rw [List.takeWhile_cons, hx]
      simp

/-- Correctness of the binary-search loop on a partitioned slice: when the
predicate holds exactly on indices below `tp`, the search returns `tp`. -/
lemma ppAux_eq {α : Type} [Inhabited α] (pred : α → Bool) (xs : List α) (tp : Nat)
    (htrue : ∀ i, i < tp → pred (xs.getD i default) = true)
    (hfalse : ∀ i, tp ≤ i → i < xs.length → pred (xs.getD i default) = false) :
    ∀ (fuel left right : Nat), left ≤ tp → tp ≤ right → right ≤ xs.length →
      right - left ≤ fuel → ppAux pred xs fuel left right = tp := by
  intro fuel
  induction fuel with
  | zero =>
    intro left right h1 h2 h3 h4
    simp only [ppAux]
    omega
  | succ g ih =>
    intro left right h1 h2 h3 h4
    by_cases hlr : left < right
    · simp only [ppAux, hlr, if_true]
      by_cases hp : pred (xs.getD (left + (right - left) / 2) default) = true
      · have hmidtp : left + (right - left) / 2 < tp := by
          by_contra hcon
          push_neg at hcon
          have hff := hfalse _ hcon (by omega)
          rw [hff] at hp
          exact absurd hp (by simp)
        simp only [hp, if_true]
        exact ih _ _ (by omega) h2 h3 (by omega)
      · have hmidtp : tp ≤ left + (right - left) / 2 := by
          by_contra hcon
          push_neg at hcon
          exact hp (htrue _ hcon)
        simp only [hp, if_false]
        exact ih _ _ h1 hmidtp (by omega) (by omega)
    · simp only [ppAux, hlr, if_false]
      omega

lemma sortByPublishedDesc_pairwise (entries : List Entry) :
    List.Pairwise (fun a b => optionLe b.published a.published = true)
      (sortByPublishedDesc entries) := by
  unfold sortByPublishedDesc
  rw [List.pairwise_reverse]
  exact List.sorted_insertionSort pubOrder entries

lemma sortByPublishedDesc_length (entries : List Entry) :
    (sortByPublishedDesc entries).length = entries.length := by
  unfold sortByPublishedDesc
  rw [List.length_reverse]
  exact (List.perm_insertionSort pubOrder entries).length_eq

lemma sortByUpdatedDesc_length (entries : List Entry) :
    (sortByUpdatedDesc entries).length = entries.length := by
  unfold sortByUpdatedDesc
  rw [List.length_reverse]
  exact (List.perm_insertionSort updOrder entries).length_eq

/-- Along a descending-sorted entry list, the since-date predicate is
downward closed in indices: if it holds at `j` it holds at every `i ≤ j`. -/
lemma sinceDatePred_downward (since : Int) (l : List Entry)
    (hsorted : List.Pairwise (fun a b => optionLe b.published a.published = true) l) :
    ∀ i j, i ≤ j → j < l.length → sinceDatePred since (l.getD j default) = true →
      sinceDatePred since (l.getD i default) = true := by
  intro i j hij hj hpred
  by_cases heq : i = j
  · subst heq; exact hpred
  · have hilt : i < j := lt_of_le_of_ne hij heq
    have hi : i < l.length := by omega
    have hrel := List.pairwise_iff_getElem.mp hsorted i j hi hj hilt
    rw [List.getD_eq_getElem l default hj] at hpred
    rw [List.getD_eq_getElem l default hi]
    rcases hj' : l[j].published with _ | pj
    · simp [sinceDatePred, hj'] at hpred
    · rcases hi' : l[i].published with _ | pi
      · rw [hj', hi'] at hrel
        simp [optionLe] at hrel
      · rw [hj', hi'] at hrel
        have hpj : since ≤ pj := by simpa [sinceDatePred, hj'] using hpred
        have hpipj : pj ≤ pi := by simpa [optionLe] using hrel
        have hgoal : since ≤ pi := by omega
        simp [sinceDatePred, hi', hgoal]

/-- On the (descending-sorted) input that `truncate_returning_rejects`
feeds it, Rust's binary-search `partition_point` returns the length of the
predicate-satisfying prefix. -/
lemma partitionPoint_sorted_eq (since : Int) (entries : List Entry) :
    partitionPoint (sinceDatePred since) (sortByPublishedDesc entries) =
      ((sortByPublishedDesc entries).takeWhile (sinceDatePred since)).length := by
  have htp_le := takeWhile_length_le (sinceDatePred since) (sortByPublishedDesc entries)
  have htrue := takeWhile_getD_true (sinceDatePred since) (sortByPublishedDesc entries)
  have hfalse : ∀ i, ((sortByPublishedDesc entries).takeWhile (sinceDatePred since)).length ≤ i →
      i < (sortByPublishedDesc entries).length →
      sinceDatePred since ((sortByPublishedDesc entries).getD i default) = false := by
    intro i hge hi
    by_contra hcon
    have htrue_i : sinceDatePred since ((sortByPublishedDesc entries).getD i default) = true := by
      cases hcase : sinceDatePred since ((sortByPublishedDesc entries).getD i default)
      · exact absurd hcase hcon
      · rfl
    have htp_true := sinceDatePred_downward since (sortByPublishedDesc entries)
      (sortByPublishedDesc_pairwise entries) _ i hge hi htrue_i
    have hff := takeWhile_getD_false_at (sinceDatePred since) (sortByPublishedDesc entries) (by omega)
    rw [hff] at htp_true
    exact absurd htp_true (by simp)
  unfold partitionPoint
  exact ppAux_eq _ _ _ htrue hfalse _ 0 _ (Nat.zero_le _) htp_le (le_refl _) (by omega)

lemma truncate_sinceDate_isSome (count : Nat) (since : Int) (entries : List Entry) :
    (truncate_returning_rejects .SinceDate count since entries).isSome = true := by
  simp only [truncate_returning_rejects]
  have hle : partitionPoint (sinceDatePred since) (sortByPublishedDesc entries)
      ≤ (sortByPublishedDesc entries).length := by
    unfold partitionPoint
    exact ppAux_le _ _ _ 0 _ (Nat.zero_le _)
  by_cases hc : partitionPoint (sinceDatePred since) (sortByPublishedDesc entries) > count
  · rw [if_pos hc]
    unfold splitOff
    rw [if_pos (by omega)]
    rfl
  · rw [if_neg hc]
    unfold splitOff
    rw [if_pos hle]
    rfl

/-! ### Claim C3: the SinceDate strategy -/

/-- C3: with more entries than `count`, the SinceDate strategy sorts the
entries descending by published date, finds the cutoff `ppoint` — the
length of the prefix still satisfying `published >= since_date` — and
keeps exactly the first `min ppoint count` entries, returning the rest as
rejects: the hard cap wins when the date filter admits more than `count`,
and otherwise exactly the `ppoint` date-admitted entries are kept even if
fewer than `count` survive (`prune_command.rs:139-150`). -/
theorem truncate_sinceDate_spec (entries : List Entry) (count : Nat) (since : Int)
    (h : count < entries.length) :
    truncate_returning_rejects .SinceDate count since entries =
      some ((sortByPublishedDesc entries).take
              (min ((sortByPublishedDesc entries).takeWhile (sinceDatePred since)).length count),
            (sortByPublishedDesc entries).drop
              (min ((sortByPublishedDesc entries).takeWhile (sinceDatePred since)).length count)) := by
  simp only [truncate_returning_rejects]
  rw [partitionPoint_sorted_eq]
  have htp := takeWhile_length_le (sinceDatePred since) (sortByPublishedDesc entries)
  by_cases hc : ((sortByPublishedDesc entries).takeWhile (sinceDatePred since)).length > count
  · rw [if_pos hc, min_eq_right (le_of_lt hc)]
    unfold splitOff
    rw [if_pos (by rw [sortByPublishedDesc_length]; omega)]
  · rw [if_neg hc]
    push_neg at hc
    rw [min_eq_left hc]
    unfold splitOff
    rw [if_pos htp]

/-- C3 (witness): the spec's tight-cap example — entries dated 2019, 2021
and 2023, `since_date` 2020, `count` 1: the date filter admits two entries
but the hard cap keeps only `[2023]`. -/
theorem truncate_sinceDate_spec_witness :
    truncate_returning_rejects .SinceDate 1 2020
        [⟨0, some 2019, none⟩, ⟨1, some 2021, none⟩, ⟨2, some 2023, none⟩] =
      some ([⟨2, some 2023, none⟩], [⟨1, some 2021, none⟩, ⟨0, some 2019, none⟩]) := by
  rw [truncate_sinceDate_spec _ 1 2020 (by decide)]
  decide

/-! ### Claim C4: infallibility of the pruner -/

/-- C4 (counterexample): `truncate_returning_rejects` is NOT infallible for
counts exceeding the sequence length.  With the RecentlyPublished strategy,
`count = 1` and no entries, `Vec::split_off(1)` is called on a vector of
length 0 and panics (`Vec::split_off` panics when `at > len`); the model
returns `none` there. -/
theorem truncate_panic_cex :
    truncate_returning_rejects .RecentlyPublished 1 0 [] = none := by
  decide

/-- C4 (amended): the pruner is infallible whenever `count` does not exceed
the number of entries — the situation the caller's pre-check in
`PruneCommand::run` guarantees — and the SinceDate strategy is infallible
for every count, because both of its split indices are bounded by the
length.  Only the Recently* strategies with `count > len` can panic. -/
theorem truncate_infallible :
    (∀ (strategy : PruneStrategy) (count : Nat) (since : Int) (entries : List Entry),
        count ≤ entries.length →
        (truncate_returning_rejects strategy count since entries).isSome = true) ∧
    (∀ (count : Nat) (since : Int) (entries : List Entry),
        (truncate_returning_rejects .SinceDate count since entries).isSome = true) := by
  refine ⟨?_, fun count since entries => truncate_sinceDate_isSome count since entries⟩
  intro strategy count since entries hc
  cases strategy with
  | RecentlyPublished =>
    simp only [truncate_returning_rejects]
    unfold splitOff
    rw [if_pos (by rw [sortByPublishedDesc_length]; omega)]
    rfl
  | RecentlyUpdated =>
    simp only [truncate_returning_rejects]
    unfold splitOff
    rw [if_pos (by rw [sortByUpdatedDesc_length]; omega)]
    rfl
  | SinceDate => exact truncate_sinceDate_isSome count since entries

/-- C4 (witness): the amended theorem applied at a concrete in-range
input. -/
theorem truncate_infallible_witness :
    (truncate_returning_rejects .RecentlyPublished 1 0 [⟨0, some 5, none⟩]).isSome = true :=
  truncate_infallible.1 .RecentlyPublished 1 0 [⟨0, some 5, none⟩] (by decide)

/-! ### Claim C5: the RecentlyPublished strategy -/

/-- C5: with more entries than `count`, the RecentlyPublished strategy
stable-sorts ascending by published timestamp (absent timestamps sort as
the minimum), reverses to descending, keeps the first `count` in place and
returns the remainder — still in sorted order — as rejects
(`prune_command.rs:129-133`).  The sorted list is a permutation of the
input and is pairwise descending on the published key. -/
theorem truncate_recentlyPublished_spec (entries : List Entry) (count : Nat) (since : Int)
    (h : count < entries.length) :
    truncate_returning_rejects .RecentlyPublished count since entries =
        some ((sortByPublishedDesc entries).take count, (sortByPublishedDesc entries).drop count) ∧
      (sortByPublishedDesc entries).Perm entries ∧
      List.Pairwise (fun a b => optionLe b.published a.published = true)
        (sortByPublishedDesc entries) := by
  refine ⟨?_, ?_, sortByPublishedDesc_pairwise entries⟩
  · simp only [truncate_returning_rejects]
    unfold splitOff
    rw [if_pos (by rw [sortByPublishedDesc_length]; omega)]
  · unfold sortByPublishedDesc
    exact (List.reverse_perm _).trans (List.perm_insertionSort pubOrder entries)

/-- C5 (witness): the spec's example — published dates 2020..2023 with
`count = 2` keep `[2023, 2022]` and reject `[2021, 2020]`. -/
theorem truncate_recentlyPublished_spec_witness :
    truncate_returning_rejects .RecentlyPublished 2 0
        [⟨0, some 2020, none⟩, ⟨1, some 2021, none⟩,
         ⟨2, some 2022, none⟩, ⟨3, some 2023, none⟩] =
      some ([⟨3, some 2023, none⟩, ⟨2, some 2022, none⟩],
            [⟨1, some 2021, none⟩, ⟨0, some 2020, none⟩]) := by
  rw [(truncate_recentlyPublished_spec _ 2 0 (by decide)).1]
  decide

/-! ### Claim C9: the caller's no-op guard -/

/-- C9: when the feed already holds at most `count` entries, `run` skips
pruning entirely — the entry sequence is returned unchanged (no sort, no
reorder, no truncation), nothing is written to a reject feed, and only the
notice is emitted (`prune_command.rs:95-96`). -/
theorem prune_run_noop (strategy : PruneStrategy) (count : Nat) (since : Int)
    (no_reject : Bool) (entries : List Entry) (h : entries.length ≤ count) :
    prune_run strategy count since no_reject entries = some (entries, none) := by
  unfold prune_run
  rw [if_pos h]

/-- C9 (witness): a two-entry feed with `count = 3` is left untouched. -/
theorem prune_run_noop_witness :
    prune_run .SinceDate 3 0 false [⟨0, some 2019, none⟩, ⟨1, some 2023, none⟩] =
      some ([⟨0, some 2019, none⟩, ⟨1, some 2023, none⟩], none) :=
  prune_run_noop .SinceDate 3 0 false [⟨0, some 2019, none⟩, ⟨1, some 2023, none⟩] (by decide)

/-! ### Claim C10: kept entries of SinceDate satisfy the date filter -/

/-- C10: every entry the SinceDate strategy keeps has a present published
timestamp that is `>= since_date`; entries lacking a timestamp or published
earlier always end up among the rejects (`prune_command.rs:139-150`). -/
theorem truncate_sinceDate_kept_invariant (entries kept rejected : List Entry)
    (count : Nat) (since : Int)
    (h : truncate_returning_rejects .SinceDate count since entries = some (kept, rejected)) :
    ∀ e ∈ kept, ∃ p, e.published = some p ∧ since ≤ p := by
  have hkept : ∃ k, k ≤ ((sortByPublishedDesc entries).takeWhile (sinceDatePred since)).length ∧
      kept = (sortByPublishedDesc entries).take k := by
    simp only [truncate_returning_rejects] at h
    rw [partitionPoint_sorted_eq] at h
    by_cases hc : ((sortByPublishedDesc entries).takeWhile (sinceDatePred since)).length > count
    · rw [if_pos hc] at h
      unfold splitOff at h
      split_ifs at h with hle
      simp only [Option.some.injEq, Prod.mk.injEq] at h
      exact ⟨count, le_of_lt hc, h.1.symm⟩
    · rw [if_neg hc] at h
      unfold splitOff at h
      split_ifs at h with hle
      simp only [Option.some.injEq, Prod.mk.injEq] at h
      exact ⟨_, le_refl _, h.1.symm⟩
  obtain ⟨k, hk_le, rfl⟩ := hkept
  intro e he
  have hsub : (sortByPublishedDesc entries).take k =
      ((sortByPublishedDesc entries).takeWhile (sinceDatePred since)).take k := by
    conv_lhs => rw [← List.takeWhile_append_dropWhile (sinceDatePred since) (sortByPublishedDesc entries)]
    rw [List.take_append_of_le_length hk_le]
  rw [hsub] at he
  have hmem : e ∈ (sortByPublishedDesc entries).takeWhile (sinceDatePred since) :=
    List.take_subset _ _ he
  have hpred := List.mem_takeWhile_imp hmem
  unfold sinceDatePred at hpred
  rcases hep : e.published with _ | pe
  · rw [hep] at hpred; simp at hpred
  · rw [hep] at hpred
    simp at hpred
    exact ⟨pe, rfl, hpred⟩

/-- C10 (witness): the kept entry of the concrete SinceDate run on entries
dated 2019, 2021, 2023 with `since_date` 2020 and `count` 2. -/
theorem truncate_sinceDate_kept_invariant_witness :
    ∃ p, (⟨2, some 2023, none⟩ : Entry).published = some p ∧ (2020 : Int) ≤ p :=
  truncate_sinceDate_kept_invariant
    [⟨0, some 2019, none⟩, ⟨1, some 2021, none⟩, ⟨2, some 2023, none⟩]
    [⟨2, some 2023, none⟩, ⟨1, some 2021, none⟩] [⟨0, some 2019, none⟩] 2 2020
    (by decide) ⟨2, some 2023, none⟩ (by decide)

end Kaboom
